import Mathlib

/-!
Verification of the core of the Near-Earth-Object close-approach explorer:
the entity model (`models.py`), the in-memory database with its
designation index and NEO-approach linking (`database.py`), and the
composable filter predicates, filter factory and limiter (`filters.py`).

Embedding conventions:
* Python floats are modelled by `FloatVal`: either the not-a-number
  sentinel or a rational number.  Comparisons follow IEEE semantics:
  NaN never satisfies `==`, `<=` or `>=`.
* Python object identity is modelled with stores: NEOs live in a
  `List NearEarthObject` addressed by position (`NeoId := Nat`), and a
  close approach's back-reference `neo` is an `Option Nat` into that
  store.  Likewise a NEO's `approaches` list holds the positions of the
  approaches in the approach collection given to the database.
* A Python exception raised during predicate evaluation is modelled by
  `Option`: `none` is the exception path (e.g. dereferencing an unset
  NEO reference), `some b` a normal boolean result.
-/

namespace NEOCore

/-- A Python float: the not-a-number sentinel or a (finite) numeric value. -/
inductive FloatVal where
  | nan : FloatVal
  | num (q : ℚ) : FloatVal
deriving DecidableEq, Repr

/-- IEEE `==` on floats: NaN is equal to nothing, numbers compare numerically. -/
def FloatVal.feq : FloatVal → FloatVal → Bool
  | .num a, .num b => decide (a = b)
  | _, _ => false

/-- IEEE `<=` on floats: false whenever either side is NaN. -/
def FloatVal.fle : FloatVal → FloatVal → Bool
  | .num a, .num b => decide (a ≤ b)
  | _, _ => false

/-- IEEE `>=` on floats: false whenever either side is NaN. -/
def FloatVal.fge : FloatVal → FloatVal → Bool
  | .num a, .num b => decide (b ≤ a)
  | _, _ => false

/-- Python truthiness of a float: `0.0` is falsy; every other float,
NaN included, is truthy. -/
def FloatVal.truthy : FloatVal → Bool
  | .nan => true
  | .num q => decide (q ≠ 0)

/-- The comparator passed to an `AttributeFilter`: `operator.eq`,
`operator.le` or `operator.ge` (the only ones the factory uses). -/
inductive CmpOp where
  | eq : CmpOp
  | le : CmpOp
  | ge : CmpOp
deriving DecidableEq, Repr

/-- Apply a comparator to two float attribute values. -/
def CmpOp.onFloat : CmpOp → FloatVal → FloatVal → Bool
  | .eq, a, b => a.feq b
  | .le, a, b => a.fle b
  | .ge, a, b => a.fge b

/-- Apply a comparator to two calendar dates (modelled as day numbers;
Python `datetime.date` values are totally ordered). -/
def CmpOp.onDate : CmpOp → Int → Int → Bool
  | .eq, a, b => decide (a = b)
  | .le, a, b => decide (a ≤ b)
  | .ge, a, b => decide (b ≤ a)

/-- Apply a comparator to two booleans (Python bools are ints: False < True). -/
def CmpOp.onBool : CmpOp → Bool → Bool → Bool
  | .eq, a, b => a == b
  | .le, a, b => !a || b
  | .ge, a, b => a || !b

/-- A parsed approach timestamp: a calendar date plus a time of day in
minutes, as produced by `cd_to_datetime`; `.date` models `datetime.date()`. -/
structure Timestamp where
  date : Int
  minutes : Nat
deriving DecidableEq, Repr

/-- The id of a NEO: its position in the NEO store. -/
abbrev NeoId := Nat

/-- The id of a close approach: its position in the approach collection. -/
abbrev ApproachId := Nat

/-- `models.NearEarthObject`: designation, optional name, diameter
(NaN when unknown), hazardous flag, and the approaches back-link list
populated by the database during linking. -/
structure NearEarthObject where
  designation : String
  name : Option String
  diameter : FloatVal
  hazardous : Bool
  approaches : List ApproachId
deriving DecidableEq, Repr

/-- `NearEarthObject.__init__`: an empty-string name is coerced to `None`
(`name if name else None`); a falsy diameter — and `0.0` is falsy — is
replaced by the NaN sentinel (`float(diameter) if diameter else float('nan')`);
the approaches list starts empty. -/
def NearEarthObject.init (designation : String) (name : Option String)
    (diameter : FloatVal) (hazardous : Bool) : NearEarthObject :=
  { designation := designation
    name := match name with
      | some s => if s = "" then none else some s
      | none => none
    diameter := if diameter.truthy then diameter else .nan
    hazardous := hazardous
    approaches := [] }

/-- `models.CloseApproach`: the NEO designation it refers to, the parsed
time (absent when the time string was falsy), distance and velocity, and
the nullable NEO back-reference set by the database. -/
structure CloseApproach where
  _designation : String
  time : Option Timestamp
  distance : FloatVal
  velocity : FloatVal
  neo : Option NeoId
deriving DecidableEq, Repr

/-- `CloseApproach.__init__`: `self.neo = None`; the time is `None` when
no time string was supplied. -/
def CloseApproach.init (designation : String) (time : Option Timestamp)
    (distance : FloatVal) (velocity : FloatVal) : CloseApproach :=
  { _designation := designation
    time := time
    distance := distance
    velocity := velocity
    neo := none }

/-- A filter predicate: one of the five concrete `AttributeFilter`
subclasses, each holding the comparator `op` and the reference `value`
given to `AttributeFilter.__init__`. -/
inductive FilterPred where
  | date (op : CmpOp) (value : Int)
  | distance (op : CmpOp) (value : FloatVal)
  | velocity (op : CmpOp) (value : FloatVal)
  | diameter (op : CmpOp) (value : FloatVal)
  | hazardous (op : CmpOp) (value : Bool)
deriving DecidableEq, Repr

/-- `AttributeFilter.__call__`: fetch the attribute with the subclass's
`get` and compare it with `op` against `value`.  `none` models the
exception path: `DateFilter.get` on an approach with no time raises
`AttributeError` (`None.date()`), and `DiameterFilter.get` /
`HazardousFilter.get` raise `AttributeError` (`None.diameter`,
`None.hazardous`) when the approach's NEO reference is unset, or fail
when the reference does not resolve in the store. -/
def evalFilter (neoStore : List NearEarthObject) (f : FilterPred)
    (a : CloseApproach) : Option Bool :=
  match f with
  | .date op v =>
    match a.time with
    | none => none
    | some t => some (op.onDate t.date v)
  | .distance op v => some (op.onFloat a.distance v)
  | .velocity op v => some (op.onFloat a.velocity v)
  | .diameter op v =>
    match a.neo with
    | none => none
    | some nid =>
      match neoStore[nid]? with
      | none => none
      | some n => some (op.onFloat n.diameter v)
  | .hazardous op v =>
    match a.neo with
    | none => none
    | some nid =>
      match neoStore[nid]? with
      | none => none
      | some n => some (op.onBool n.hazardous v)

/-- `all(f(approach) for f in filters)`: evaluate the filters left to
right, short-circuiting on the first false result; an exception in any
evaluated filter propagates. -/
def evalAll (neoStore : List NearEarthObject) (fs : List FilterPred)
    (a : CloseApproach) : Option Bool :=
  match fs with
  | [] => some true
  | f :: rest =>
    match evalFilter neoStore f a with
    | none => none
    | some false => some false
    | some true => evalAll neoStore rest a

/-- `NEODatabase.query`: walk the stored approaches in order and keep
those on which every filter evaluates true; an exception raised by a
filter aborts the whole query. -/
def query (neoStore : List NearEarthObject) (approaches : List CloseApproach)
    (fs : List FilterPred) : Option (List CloseApproach) :=
  match approaches with
  | [] => some []
  | a :: rest =>
    match evalAll neoStore fs a with
    | none => none
    | some true => (query neoStore rest fs).map (a :: ·)
    | some false => query neoStore rest fs

/-- `filters.limit`: `if n:` — a present, nonzero maximum truncates the
stream (`zip(range(n), iterator)`, empty for a negative `n`); `None` or
`0` returns the input unchanged. -/
def limit (l : List α) (n : Option Int) : List α :=
  match n with
  | some m => if m ≠ 0 then l.take m.toNat else l
  | none => l

/-- `filters.create_filters`: one predicate per supplied parameter, in
source order.  Each date parameter is tested with `if date:` (a date
object is truthy exactly when present); each numeric threshold is tested
with `if distance_min:` etc., so a falsy float — `0.0` — contributes no
predicate; `hazardous` alone is tested with `is not None`. -/
def create_filters (date start_date end_date : Option Int)
    (distance_min distance_max velocity_min velocity_max
      diameter_min diameter_max : Option FloatVal)
    (hazardous : Option Bool) : List FilterPred :=
  (match date with
    | some d => [FilterPred.date .eq d]
    | none => [])
  ++ (match start_date with
    | some d => [FilterPred.date .ge d]
    | none => [])
  ++ (match end_date with
    | some d => [FilterPred.date .le d]
    | none => [])
  ++ (match distance_min with
    | some v => if v.truthy then [FilterPred.distance .ge v] else []
    | none => [])
  ++ (match distance_max with
    | some v => if v.truthy then [FilterPred.distance .le v] else []
    | none => [])
  ++ (match velocity_min with
    | some v => if v.truthy then [FilterPred.velocity .ge v] else []
    | none => [])
  ++ (match velocity_max with
    | some v => if v.truthy then [FilterPred.velocity .le v] else []
    | none => [])
  ++ (match diameter_min with
    | some v => if v.truthy then [FilterPred.diameter .ge v] else []
    | none => [])
  ++ (match diameter_max with
    | some v => if v.truthy then [FilterPred.diameter .le v] else []
    | none => [])
  ++ (match hazardous with
    | some b => [FilterPred.hazardous .eq b]
    | none => [])

/-- The index of the last element of the list satisfying `p`, if any:
the lookup behaviour of a Python dict comprehension keyed by a
non-injective key (later entries overwrite earlier ones). -/
def lastIdxWith (p : α → Bool) : List α → Option Nat
  | [] => none
  | x :: rest =>
    match lastIdxWith p rest with
    | some i => some (i + 1)
    | none => if p x then some 0 else none

/-- The designation index built by `NEODatabase.__init__`:
`{neo.designation: neo for neo in neos}`, looked up with `.get`.
Returns the id (store position) of the last NEO with the designation. -/
def designationIndex (neos : List NearEarthObject) (d : String) : Option NeoId :=
  lastIdxWith (fun n => n.designation == d) neos

/-- One iteration of the linking loop in `NEODatabase.__init__`: look the
approach's designation up in the index; on a hit, set the approach's
`neo` reference and append the approach to that NEO's `approaches`. -/
def linkOne (index : String → Option NeoId) (neos : List NearEarthObject)
    (aid : ApproachId) (a : CloseApproach) :
    List NearEarthObject × CloseApproach :=
  match index a._designation with
  | none => (neos, a)
  | some nid =>
    match neos[nid]? with
    | none => (neos, a)
    | some n =>
      (neos.set nid { n with approaches := n.approaches ++ [aid] },
       { a with neo := some nid })

/-- The linking loop of `NEODatabase.__init__` over the whole approach
collection, threading the mutated NEO store; `aid` numbers the
approaches by their position in the collection. -/
def linkAll (index : String → Option NeoId) :
    List NearEarthObject → List CloseApproach → ApproachId →
    List NearEarthObject × List CloseApproach
  | neos, [], _ => (neos, [])
  | neos, a :: rest, aid =>
    let p := linkOne index neos aid a
    let q := linkAll index p.1 rest (aid + 1)
    (q.1, p.2 :: q.2)

/-- `NEODatabase.__init__`: build the designation index from the NEO
collection, then run the linking loop.  Returns the mutated NEO store
and the mutated approach collection. -/
def NEODatabase.init (neos : List NearEarthObject)
    (approaches : List CloseApproach) :
    List NearEarthObject × List CloseApproach :=
  linkAll (designationIndex neos) neos approaches 0

/-- Does a filter predicate come from `HazardousFilter`? -/
def FilterPred.isHazardous : FilterPred → Bool
  | .hazardous _ _ => true
  | _ => false

/-- An index function is valid for a store length when every hit is a
position inside the store — true of the database's designation index by
construction, since the dict values are the NEOs themselves. -/
def IndexValid (index : String → Option NeoId) (len : Nat) : Prop :=
  ∀ d i, index d = some i → i < len

/-- The approach produced by one linking iteration: the NEO reference is
set exactly when the designation lookup hits. -/
def linkedApp (index : String → Option NeoId) (a : CloseApproach) :
    CloseApproach :=
  match index a._designation with
  | some nid => { a with neo := some nid }
  | none => a

/-- The ids of the approaches the linking loop appends to the NEO at
store position `nid`, in supply order, numbering the collection from
`aid`. -/
def matchedIds (index : String → Option NeoId) (nid : NeoId) :
    List CloseApproach → ApproachId → List ApproachId
  | [], _ => []
  | a :: rest, aid =>
    (if index a._designation = some nid then [aid] else [])
      ++ matchedIds index nid rest (aid + 1)

/-- A sample orphaned approach: its designation matches no NEO. -/
def orphanApproach : CloseApproach :=
  CloseApproach.init "1999 XY" none (.num 1) (.num 2)

/-- A sample NEO with unknown (NaN) diameter. -/
def unknownDiameterNeo : NearEarthObject :=
  NearEarthObject.init "2010 PK9" none .nan false

/-- A sample approach linked to the NEO at store position 0. -/
def linkedApproach : CloseApproach :=
  { CloseApproach.init "2010 PK9" none (.num 1) (.num 2) with neo := some 0 }

/-- A sample NEO constructed with diameter 0. -/
def zeroDiameterNeo : NearEarthObject :=
  NearEarthObject.init "2020 AB" (some "Sample") (.num 0) false

/-- An approach linked (at store position 0) to the zero-diameter NEO. -/
def zeroDiameterApproach : CloseApproach :=
  { CloseApproach.init "2020 AB" none (.num 1) (.num 2) with neo := some 0 }

/-- A sample linked approach with small distance and velocity. -/
def sampleApproachA : CloseApproach :=
  CloseApproach.init "433" none (.num 1) (.num 5)

/-- A second sample approach with larger distance and velocity. -/
def sampleApproachB : CloseApproach :=
  CloseApproach.init "433" none (.num 2) (.num 7)

/-- The sample NEO of the spec's end-to-end example ("433 Eros"). -/
def erosNeo : NearEarthObject :=
  NearEarthObject.init "433" (some "Eros") (.num 16) false

/-- An approach of designation "433": linked to `erosNeo` by the database. -/
def erosApproach : CloseApproach :=
  CloseApproach.init "433" (some ⟨7305, 0⟩) (.num 1) (.num 5)

/-- An approach of designation "999": matches no NEO and stays orphaned. -/
def strayApproach : CloseApproach :=
  CloseApproach.init "999" (some ⟨7306, 30⟩) (.num 2) (.num 7)

/-! ### Helper lemmas -/

/-- Any comparator applied to a NaN attribute value yields false. -/
theorem CmpOp.onFloat_nan_left (op : CmpOp) (v : FloatVal) :
    op.onFloat .nan v = false := by
  cases op <;> cases v <;> rfl

/-- A freshly-constructed NEO given diameter `0` stores the NaN sentinel. -/
theorem NearEarthObject.init_zero_diameter (des : String) (nm : Option String)
    (hz : Bool) :
    (NearEarthObject.init des nm (.num 0) hz).diameter = .nan := by
  simp [NearEarthObject.init, FloatVal.truthy]

/-- Evaluating a diameter filter against a linked NEO whose diameter is
NaN returns false normally (no exception). -/
theorem evalFilter_diameter_nan (neoStore : List NearEarthObject)
    (a : CloseApproach) (nid : NeoId) (n : NearEarthObject) (op : CmpOp)
    (v : FloatVal) (h1 : a.neo = some nid) (h2 : neoStore[nid]? = some n)
    (h3 : n.diameter = .nan) :
    evalFilter neoStore (.diameter op v) a = some false := by
  simp [evalFilter, h1, h2, h3, CmpOp.onFloat_nan_left]

/-- If every filter in the collection evaluates without exception on an
approach, the short-circuit conjunction equals `List.all` of the
individual boolean results. -/
theorem evalAll_eq_all (neoStore : List NearEarthObject)
    (fs : List FilterPred) (a : CloseApproach)
    (h : ∀ f ∈ fs, (evalFilter neoStore f a).isSome) :
    evalAll neoStore fs a
      = some (fs.all (fun f => (evalFilter neoStore f a).getD false)) := by
  induction fs with
  | nil => rfl
  | cons f rest ih =>
    obtain ⟨b, hb⟩ := Option.isSome_iff_exists.mp (h f (by simp))
    cases b with
    | false => simp [evalAll, hb]
    | true => simp [evalAll, hb, ih (fun g hg => h g (by simp [hg]))]

/-- If every filter evaluates without exception on every stored
approach, `query` succeeds and equals a `List.filter`. -/
theorem query_eq_filter (neoStore : List NearEarthObject)
    (apps : List CloseApproach) (fs : List FilterPred)
    (h : ∀ a ∈ apps, ∀ f ∈ fs, (evalFilter neoStore f a).isSome) :
    query neoStore apps fs
      = some (apps.filter
          (fun a => fs.all (fun f => (evalFilter neoStore f a).getD false))) := by
  induction apps with
  | nil => rfl
  | cons a rest ih =>
    have ha := evalAll_eq_all neoStore fs a (h a (by simp))
    have ih' := ih (fun x hx f hf => h x (by simp [hx]) f hf)
    cases hb : fs.all (fun f => (evalFilter neoStore f a).getD false) with
    | false => simp [query, ha, hb, ih']
    | true => simp [query, ha, hb, ih']

/-- `lastIdxWith` only returns positions inside the list. -/
theorem lastIdxWith_lt (p : α → Bool) (l : List α) (i : Nat)
    (h : lastIdxWith p l = some i) : i < l.length := by
  induction l generalizing i with
  | nil => simp [lastIdxWith] at h
  | cons x rest ih =>
    rw [lastIdxWith] at h
    cases hr : lastIdxWith p rest with
    | some j =>
      rw [hr] at h
      simp only [Option.some.injEq] at h
      have := ih j hr
      simp only [List.length_cons]
      omega
    | none =>
      rw [hr] at h
      split_ifs at h
      simp only [Option.some.injEq] at h
      simp only [List.length_cons]
      omega

/-- If nothing in the list satisfies `p`, `lastIdxWith` finds nothing. -/
theorem lastIdxWith_none (p : α → Bool) (l : List α)
    (h : ∀ x ∈ l, p x = false) : lastIdxWith p l = none := by
  induction l with
  | nil => rfl
  | cons y rest ih =>
    simp [lastIdxWith, ih (fun x hx => h x (by simp [hx])), h y (by simp)]

/-- If position `i` holds the unique element satisfying `p`, the
last-match lookup returns `i`. -/
theorem lastIdxWith_unique (p : α → Bool) (l : List α) (i : Nat) (x : α)
    (hx : l[i]? = some x) (hp : p x = true)
    (huniq : ∀ j y, l[j]? = some y → p y = true → j = i) :
    lastIdxWith p l = some i := by
  induction l generalizing i with
  | nil => simp at hx
  | cons z rest ih =>
    cases i with
    | zero =>
      have hzx : z = x := by simpa using hx
      subst hzx
      rw [lastIdxWith]
      have hr : lastIdxWith p rest = none := by
        apply lastIdxWith_none
        intro w hw
        obtain ⟨j, hj⟩ := List.mem_iff_getElem?.mp hw
        by_contra hpw
        have hpw' : p w = true := by
          cases hcase : p w
          · exact absurd hcase hpw
          · rfl
        have := huniq (j + 1) w (by simpa using hj) hpw'
        omega
      rw [hr, hp]
      rfl
    | succ k =>
      rw [lastIdxWith]
      have hr : lastIdxWith p rest = some k := by
        apply ih k (by simpa using hx)
        intro j y hj hpy
        have := huniq (j + 1) y (by simpa using hj) hpy
        omega
      rw [hr]

/-- The designation index only returns positions inside the NEO store. -/
theorem designationIndex_valid (neos : List NearEarthObject) :
    IndexValid (designationIndex neos) neos.length := by
  intro d i h
  exact lastIdxWith_lt _ _ _ h

/-- With pairwise-distinct designations, the designation index maps the
designation of the NEO at position `nid` back to `nid`. -/
theorem designationIndex_eq_of_nodup (neos : List NearEarthObject)
    (hnodup : (neos.map (·.designation)).Nodup) (nid : NeoId)
    (n : NearEarthObject) (hn : neos[nid]? = some n) :
    designationIndex neos n.designation = some nid := by
  apply lastIdxWith_unique _ _ _ n hn (by simp)
  intro j y hj hpy
  have hyd : y.designation = n.designation := by simpa using hpy
  have h1 : (neos.map (·.designation))[j]? = some n.designation := by
    rw [List.getElem?_map, hj, Option.map_some', hyd]
  have h2 : (neos.map (·.designation))[nid]? = some n.designation := by
    rw [List.getElem?_map, hn, Option.map_some']
  have hjlt : j < neos.length := (List.getElem?_eq_some_iff.mp hj).1
  exact List.getElem?_inj (by simpa using hjlt) hnodup (h1.trans h2.symm)

/-- If no NEO carries the designation, the index lookup misses. -/
theorem designationIndex_none (neos : List NearEarthObject) (d : String)
    (h : ∀ n ∈ neos, n.designation ≠ d) :
    designationIndex neos d = none := by
  apply lastIdxWith_none
  intro n hn
  simpa using h n hn

/-- The designation index depends only on the designations. -/
theorem designationIndex_congr (neos1 neos2 : List NearEarthObject)
    (h : neos1.map (·.designation) = neos2.map (·.designation))
    (d : String) :
    designationIndex neos1 d = designationIndex neos2 d := by
  induction neos1 generalizing neos2 with
  | nil =>
    cases neos2 with
    | nil => rfl
    | cons y ys => simp at h
  | cons x xs ih =>
    cases neos2 with
    | nil => simp at h
    | cons y ys =>
      simp only [List.map_cons, List.cons.injEq] at h
      obtain ⟨h1, h2⟩ := h
      simp only [designationIndex, lastIdxWith] at ih ⊢
      rw [ih ys h2]
      simp only [h1]

/-- One linking iteration does not change the NEO store's length. -/
theorem linkOne_fst_length (index : String → Option NeoId)
    (neos : List NearEarthObject) (aid : ApproachId) (a : CloseApproach) :
    (linkOne index neos aid a).1.length = neos.length := by
  unfold linkOne
  split
  · rfl
  · split
    · rfl
    · simp

/-- One linking iteration rewrites the approach to `linkedApp` (the
store lookup never misses for a valid index). -/
theorem linkOne_snd (index : String → Option NeoId)
    (neos : List NearEarthObject) (aid : ApproachId) (a : CloseApproach)
    (hvalid : IndexValid index neos.length) :
    (linkOne index neos aid a).2 = linkedApp index a := by
  cases h : index a._designation with
  | none => simp [linkOne, linkedApp, h]
  | some nid =>
    have hlt : nid < neos.length := hvalid _ _ h
    simp [linkOne, linkedApp, h, List.getElem?_eq_getElem hlt]

/-- The NEO store after one linking iteration, position by position:
only the hit position gains the approach id. -/
theorem linkOne_fst_getElem? (index : String → Option NeoId)
    (neos : List NearEarthObject) (aid : ApproachId) (a : CloseApproach)
    (hvalid : IndexValid index neos.length) (j : Nat) :
    (linkOne index neos aid a).1[j]?
      = if index a._designation = some j
        then (neos[j]?).map
            (fun n => { n with approaches := n.approaches ++ [aid] })
        else neos[j]? := by
  cases h : index a._designation with
  | none => simp [linkOne, h]
  | some nid =>
    have hlt : nid < neos.length := hvalid _ _ h
    by_cases hj : nid = j
    · subst hj
      simp [linkOne, h, List.getElem?_eq_getElem hlt,
        List.getElem?_set_self hlt]
    · simp [linkOne, h, List.getElem?_eq_getElem hlt,
        List.getElem?_set_ne hj, hj]

/-- The linking loop does not change the NEO store's length. -/
theorem linkAll_fst_length (index : String → Option NeoId)
    (apps : List CloseApproach) :
    ∀ (neos : List NearEarthObject) (aid : ApproachId),
      (linkAll index neos apps aid).1.length = neos.length := by
  induction apps with
  | nil => intro neos aid; rfl
  | cons a rest ih =>
    intro neos aid
    simp only [linkAll]
    rw [ih, linkOne_fst_length]

/-- The approach collection after linking: each approach is rewritten
independently by `linkedApp`. -/
theorem linkAll_snd (index : String → Option NeoId)
    (apps : List CloseApproach) :
    ∀ (neos : List NearEarthObject) (aid : ApproachId),
      IndexValid index neos.length →
      (linkAll index neos apps aid).2 = apps.map (linkedApp index) := by
  induction apps with
  | nil => intro neos aid _; rfl
  | cons a rest ih =>
    intro neos aid hvalid
    simp only [linkAll, List.map_cons]
    rw [linkOne_snd _ _ _ _ hvalid,
      ih _ _ (by rw [linkOne_fst_length]; exact hvalid)]

/-- The NEO store after linking, position by position: the NEO at `nid`
gains exactly the matched approach ids, in supply order. -/
theorem linkAll_fst_getElem? (index : String → Option NeoId)
    (apps : List CloseApproach) :
    ∀ (neos : List NearEarthObject) (aid : ApproachId),
      IndexValid index neos.length →
      ∀ nid : NeoId,
        (linkAll index neos apps aid).1[nid]?
          = (neos[nid]?).map (fun n => { n with
              approaches := n.approaches ++ matchedIds index nid apps aid }) := by
  induction apps with
  | nil =>
    intro neos aid _ nid
    simp only [linkAll, matchedIds]
    cases neos[nid]? <;> simp
  | cons a rest ih =>
    intro neos aid hvalid nid
    simp only [linkAll, matchedIds]
    have hvalid' : IndexValid index (linkOne index neos aid a).1.length := by
      rw [linkOne_fst_length]; exact hvalid
    rw [ih _ _ hvalid' nid, linkOne_fst_getElem? _ _ _ _ hvalid nid]
    by_cases h : index a._designation = some nid
    · rw [if_pos h, if_pos h]
      cases neos[nid]? with
      | none => rfl
      | some n => simp
    · rw [if_neg h, if_neg h]
      cases neos[nid]? <;> simp

/-- Linking preserves every NEO's designation. -/
theorem linkAll_designations (index : String → Option NeoId)
    (apps : List CloseApproach) (neos : List NearEarthObject)
    (aid : ApproachId) (hvalid : IndexValid index neos.length) :
    (linkAll index neos apps aid).1.map (·.designation)
      = neos.map (·.designation) := by
  apply List.ext_getElem?
  intro j
  rw [List.getElem?_map, List.getElem?_map,
    linkAll_fst_getElem? _ _ _ _ hvalid j]
  cases neos[j]? <;> rfl

/-- Every matched id is at least the starting number. -/
theorem matchedIds_le (index : String → Option NeoId) (nid : NeoId)
    (apps : List CloseApproach) :
    ∀ (aid x : Nat), x ∈ matchedIds index nid apps aid → aid ≤ x := by
  induction apps with
  | nil => intro aid x hx; simp [matchedIds] at hx
  | cons a rest ih =>
    intro aid x hx
    simp only [matchedIds, List.mem_append] at hx
    rcases hx with hx | hx
    · split at hx
      · simp at hx; omega
      · simp at hx
    · have := ih (aid + 1) x hx
      omega

/-- A matched approach id occurs exactly once in the matched-id list. -/
theorem matchedIds_count (index : String → Option NeoId) (nid : NeoId)
    (apps : List CloseApproach) :
    ∀ (aid k : Nat) (a : CloseApproach), apps[k]? = some a →
      index a._designation = some nid →
      (matchedIds index nid apps aid).count (aid + k) = 1 := by
  induction apps with
  | nil => intro aid k a hk _; simp at hk
  | cons b rest ih =>
    intro aid k a hk hidx
    cases k with
    | zero =>
      have hb : b = a := by simpa using hk
      subst hb
      simp only [matchedIds, hidx, if_pos rfl, Nat.add_zero]
      rw [List.count_append]
      have hM : aid ∉ matchedIds index nid rest (aid + 1) := by
        intro hmem
        have := matchedIds_le index nid rest (aid + 1) aid hmem
        omega
      rw [List.count_eq_zero_of_not_mem hM]
      simp
    | succ j =>
      simp only [matchedIds]
      rw [List.count_append]
      have harith : aid + (j + 1) = (aid + 1) + j := by omega
      rw [harith]
      have htail := ih (aid + 1) j a (by simpa using hk) hidx
      rw [htail]
      have hhead :
          (if index b._designation = some nid then [aid] else []).count
            ((aid + 1) + j) = 0 := by
        split
        · rw [List.count_singleton]
          simp
          omega
        · rfl
      rw [hhead]

/-- `matchedIds` depends only on the designations, which `linkedApp`
preserves: relinking an already-linked collection matches the same ids. -/
theorem matchedIds_map_linkedApp (index index2 : String → Option NeoId)
    (nid : NeoId) (apps : List CloseApproach) :
    ∀ aid, matchedIds index nid (apps.map (linkedApp index2)) aid
      = matchedIds index nid apps aid := by
  induction apps with
  | nil => intro aid; rfl
  | cons a rest ih =>
    intro aid
    simp only [List.map_cons, matchedIds, ih]
    have hdes : (linkedApp index2 a)._designation = a._designation := by
      unfold linkedApp
      cases index2 a._designation <;> rfl
    rw [hdes]

/-! ### Claim theorems -/

/-- C1 (code behaviour at the failing input): calling `create_filters`
with a numeric threshold supplied as exactly `0` produces NO predicate —
the `if velocity_min:` style falsy test drops the value — contradicting
the specified treatment of zero as a legitimate supplied threshold. -/
theorem create_filters_zero_threshold_dropped :
    create_filters none none none none none (some (.num 0)) none none none
        none = [] ∧
    create_filters none none none (some (.num 0)) none none none none none
        none = [] ∧
    create_filters none none none none none none none (some (.num 0)) none
        none = [] := by
  refine ⟨?_, ?_, ?_⟩ <;> simp [create_filters, FloatVal.truthy]

/-- C3: querying with an empty filter collection yields every stored
approach, in insertion order, exactly once — both over an arbitrary
store and over a database built by `NEODatabase.init`. -/
theorem query_no_filters (neoStore : List NearEarthObject)
    (approaches : List CloseApproach) (neos : List NearEarthObject)
    (apps : List CloseApproach) :
    query neoStore approaches [] = some approaches ∧
    query (NEODatabase.init neos apps).1 (NEODatabase.init neos apps).2 []
      = some (NEODatabase.init neos apps).2 := by
  have hgen : ∀ (st : List NearEarthObject) (l : List CloseApproach),
      query st l [] = some l := by
    intro st l
    induction l with
    | nil => rfl
    | cons a rest ih => simp [query, evalAll, ih]
  exact ⟨hgen _ _, hgen _ _⟩

/-- C4: when the filters involved evaluate without exception on the
stored approaches, `query [f1, f2]` equals `query [f1]` filtered again
by `f2`, and permuting a filter collection leaves the query result
unchanged. -/
theorem query_filter_composition (neoStore : List NearEarthObject)
    (apps : List CloseApproach) :
    (∀ f1 f2 : FilterPred,
      (∀ a ∈ apps, (evalFilter neoStore f1 a).isSome) →
      (∀ a ∈ apps, (evalFilter neoStore f2 a).isSome) →
      query neoStore apps [f1, f2]
        = (query neoStore apps [f1]).bind
            (fun l => query neoStore l [f2])) ∧
    (∀ fs fs' : List FilterPred, fs.Perm fs' →
      (∀ a ∈ apps, ∀ f ∈ fs, (evalFilter neoStore f a).isSome) →
      query neoStore apps fs = query neoStore apps fs') := by
  constructor
  · intro f1 f2 h1 h2
    have h12 : ∀ a ∈ apps, ∀ f ∈ [f1, f2],
        (evalFilter neoStore f a).isSome := by
      intro a ha f hf
      rcases List.mem_cons.mp hf with rfl | hf
      · exact h1 a ha
      · rcases List.mem_singleton.mp hf with rfl
        exact h2 a ha
    rw [query_eq_filter _ _ _ h12,
      query_eq_filter _ _ _ (fun a ha f hf => by
        rcases List.mem_singleton.mp hf with rfl; exact h1 a ha)]
    rw [Option.some_bind,
      query_eq_filter _ _ _ (fun a ha f hf => by
        rcases List.mem_singleton.mp hf with rfl
        exact h2 a (List.mem_of_mem_filter ha))]
    rw [List.filter_filter]
    congr 1
    apply List.filter_congr
    intro a _
    simp only [List.all_cons, List.all_nil, Bool.and_true]
    exact Bool.and_comm _ _
  · intro fs fs' hperm h
    have h' : ∀ a ∈ apps, ∀ f ∈ fs', (evalFilter neoStore f a).isSome :=
      fun a ha f hf => h a ha f (hperm.mem_iff.mpr hf)
    rw [query_eq_filter _ _ _ h, query_eq_filter _ _ _ h']
    congr 1
    apply List.filter_congr
    intro a _
    rw [Bool.eq_iff_iff]
    simp only [List.all_eq_true]
    exact ⟨fun hh f hf => hh f (hperm.mem_iff.mpr hf),
      fun hh f hf => hh f (hperm.mem_iff.mp hf)⟩

/-- Witness for C4: composition and a swap of a distance filter and a
velocity filter on two concrete approaches. -/
theorem query_filter_composition_witness :
    query [] [sampleApproachA, sampleApproachB]
        [.distance .le (.num 1), .velocity .ge (.num 0)]
      = (query [] [sampleApproachA, sampleApproachB]
          [.distance .le (.num 1)]).bind
          (fun l => query [] l [.velocity .ge (.num 0)]) ∧
    query [] [sampleApproachA, sampleApproachB]
        [.distance .le (.num 1), .velocity .ge (.num 0)]
      = query [] [sampleApproachA, sampleApproachB]
          [.velocity .ge (.num 0), .distance .le (.num 1)] :=
  ⟨(query_filter_composition [] [sampleApproachA, sampleApproachB]).1
      (.distance .le (.num 1)) (.velocity .ge (.num 0))
      (by intro a _; rfl) (by intro a _; rfl),
   (query_filter_composition [] [sampleApproachA, sampleApproachB]).2
      [.distance .le (.num 1), .velocity .ge (.num 0)]
      [.velocity .ge (.num 0), .distance .le (.num 1)]
      (List.Perm.swap _ _ _)
      (by
        intro a _ f hf
        rcases List.mem_cons.mp hf with rfl | hf
        · rfl
        · rcases List.mem_singleton.mp hf with rfl; rfl)⟩

/-- C5: a NEO-dereferencing predicate (diameter or hazardous) evaluated
on an orphaned approach (unset NEO reference) takes the exception path
(`none`), never a silent boolean. -/
theorem orphan_filter_raises (neoStore : List NearEarthObject)
    (opF opB : CmpOp) (vF : FloatVal) (vB : Bool) (a : CloseApproach)
    (h : a.neo = none) :
    evalFilter neoStore (.diameter opF vF) a = none ∧
    evalFilter neoStore (.hazardous opB vB) a = none := by
  constructor <;> simp [evalFilter, h]

/-- Witness for C5 at a concrete orphaned approach. -/
theorem orphan_filter_raises_witness :
    evalFilter [] (.diameter .ge (.num 0)) orphanApproach = none ∧
    evalFilter [] (.hazardous .eq true) orphanApproach = none :=
  orphan_filter_raises [] .ge .eq (.num 0) true orphanApproach rfl

/-- C6: a diameter predicate with any of the three comparators and a
numeric reference value evaluates to false — without raising — on an
approach linked to a NEO whose diameter is the NaN sentinel. -/
theorem nan_diameter_filter_false (neoStore : List NearEarthObject)
    (a : CloseApproach) (nid : NeoId) (n : NearEarthObject) (op : CmpOp)
    (q : ℚ) (h1 : a.neo = some nid) (h2 : neoStore[nid]? = some n)
    (h3 : n.diameter = .nan) :
    evalFilter neoStore (.diameter op (.num q)) a = some false :=
  evalFilter_diameter_nan neoStore a nid n op (.num q) h1 h2 h3

/-- Witness for C6: each comparator evaluates to false on the concrete
NaN-diameter NEO. -/
theorem nan_diameter_filter_false_witness :
    evalFilter [unknownDiameterNeo] (.diameter .eq (.num 5)) linkedApproach
        = some false ∧
    evalFilter [unknownDiameterNeo] (.diameter .le (.num 5)) linkedApproach
        = some false ∧
    evalFilter [unknownDiameterNeo] (.diameter .ge (.num 5)) linkedApproach
        = some false :=
  ⟨nan_diameter_filter_false _ _ 0 unknownDiameterNeo .eq 5 rfl rfl rfl,
   nan_diameter_filter_false _ _ 0 unknownDiameterNeo .le 5 rfl rfl rfl,
   nan_diameter_filter_false _ _ 0 unknownDiameterNeo .ge 5 rfl rfl rfl⟩

/-- C7: `limit` with a positive maximum yields exactly the first
`min n (length)` elements in order (`List.take`); with the maximum
absent or zero it returns the input unchanged. -/
theorem limit_spec (l : List α) :
    limit l none = l ∧ limit l (some 0) = l ∧
    ∀ n : Int, 0 < n → limit l (some n) = l.take n.toNat := by
  refine ⟨rfl, by simp [limit], fun n hn => ?_⟩
  simp [limit, show n ≠ 0 by omega]

/-- Witness for C7 on a 10-element list with maximum 3. -/
theorem limit_spec_witness :
    limit [1, 2, 3, 4, 5, 6, 7, 8, 9, 10] (some 3) = [1, 2, 3] ∧
    limit [1, 2, 3, 4, 5, 6, 7, 8, 9, 10] (none : Option Int)
      = [1, 2, 3, 4, 5, 6, 7, 8, 9, 10] :=
  ⟨((limit_spec [1, 2, 3, 4, 5, 6, 7, 8, 9, 10]).2.2 3 (by decide)).trans rfl,
   (limit_spec [1, 2, 3, 4, 5, 6, 7, 8, 9, 10]).1⟩

/-- C8: constructing a `NearEarthObject` with diameter `0` stores the
NaN sentinel, so every diameter predicate thereafter evaluates false for
an approach linked to that NEO. -/
theorem zero_diameter_coerced_to_nan (des : String) (nm : Option String)
    (hz : Bool) :
    (NearEarthObject.init des nm (.num 0) hz).diameter = .nan ∧
    ∀ (neoStore : List NearEarthObject) (nid : NeoId) (a : CloseApproach)
      (op : CmpOp) (v : FloatVal), a.neo = some nid →
      neoStore[nid]? = some (NearEarthObject.init des nm (.num 0) hz) →
      evalFilter neoStore (.diameter op v) a = some false := by
  refine ⟨NearEarthObject.init_zero_diameter des nm hz, ?_⟩
  intro neoStore nid a op v h1 h2
  exact evalFilter_diameter_nan neoStore a nid _ op v h1 h2
    (NearEarthObject.init_zero_diameter des nm hz)

/-- Witness for C8 at the concrete zero-diameter NEO. -/
theorem zero_diameter_coerced_to_nan_witness :
    zeroDiameterNeo.diameter = .nan ∧
    evalFilter [zeroDiameterNeo] (.diameter .ge (.num 0)) zeroDiameterApproach
      = some false :=
  ⟨(zero_diameter_coerced_to_nan "2020 AB" (some "Sample") false).1,
   (zero_diameter_coerced_to_nan "2020 AB" (some "Sample") false).2
     [zeroDiameterNeo] 0 zeroDiameterApproach .ge (.num 0) rfl rfl⟩

/-- C9: `hazardous` is tested with `is not None`, so `hazardous=False`
(or any supplied boolean) appends exactly one equality predicate, while
`hazardous=None` contributes none — and no other parameter ever
contributes a hazardous predicate. -/
theorem hazardous_false_supplied (d sd ed : Option Int)
    (dmin dmax vmin vmax dimin dimax : Option FloatVal) :
    (∀ b : Bool,
      create_filters d sd ed dmin dmax vmin vmax dimin dimax (some b)
        = create_filters d sd ed dmin dmax vmin vmax dimin dimax none
          ++ [FilterPred.hazardous .eq b]) ∧
    (create_filters d sd ed dmin dmax vmin vmax dimin dimax none).all
      (fun f => !f.isHazardous) = true := by
  constructor
  · intro b
    simp [create_filters]
  · simp only [create_filters, List.all_append, Bool.and_eq_true]
    refine ⟨⟨⟨⟨⟨⟨⟨⟨⟨?_, ?_⟩, ?_⟩, ?_⟩, ?_⟩, ?_⟩, ?_⟩, ?_⟩, ?_⟩, ?_⟩
    · cases d <;> simp [FilterPred.isHazardous]
    · cases sd <;> simp [FilterPred.isHazardous]
    · cases ed <;> simp [FilterPred.isHazardous]
    · cases dmin <;> simp [FilterPred.isHazardous]
    · cases dmax <;> simp [FilterPred.isHazardous]
    · cases vmin <;> simp [FilterPred.isHazardous]
    · cases vmax <;> simp [FilterPred.isHazardous]
    · cases dimin <;> simp [FilterPred.isHazardous]
    · cases dimax <;> simp [FilterPred.isHazardous]
    · simp

/-- C2: after database construction from fresh NEOs with distinct
designations, an approach whose designation matches the NEO at store
position `nid` has its `neo` reference set to that NEO and occurs
exactly once in that NEO's `approaches`; an approach matching no NEO is
returned unchanged (its `neo` reference stays as supplied — unset for a
freshly-constructed approach). -/
theorem database_linking (neos : List NearEarthObject)
    (apps : List CloseApproach)
    (hfresh : ∀ n ∈ neos, n.approaches = [])
    (hnodup : (neos.map (·.designation)).Nodup)
    (k : ApproachId) (a : CloseApproach) (hk : apps[k]? = some a) :
    (∀ nid : NeoId, ∀ n ∈ neos[nid]?, n.designation = a._designation →
      (NEODatabase.init neos apps).2[k]? = some { a with neo := some nid } ∧
      ∃ n', (NEODatabase.init neos apps).1[nid]? = some n' ∧
        n'.designation = n.designation ∧ n'.approaches.count k = 1) ∧
    ((∀ n ∈ neos, n.designation ≠ a._designation) →
      (NEODatabase.init neos apps).2[k]? = some a) := by
  have hvalid : IndexValid (designationIndex neos) neos.length :=
    designationIndex_valid neos
  constructor
  · intro nid n hn hdes
    rw [Option.mem_def] at hn
    have hidx : designationIndex neos a._designation = some nid := by
      rw [← hdes]
      exact designationIndex_eq_of_nodup neos hnodup nid n hn
    constructor
    · simp only [NEODatabase.init]
      rw [linkAll_snd _ _ _ _ hvalid, List.getElem?_map, hk,
        Option.map_some']
      simp [linkedApp, hidx]
    · simp only [NEODatabase.init]
      rw [linkAll_fst_getElem? _ _ _ _ hvalid nid, hn, Option.map_some']
      refine ⟨_, rfl, rfl, ?_⟩
      show (n.approaches ++ _).count k = 1
      rw [hfresh n (List.getElem?_mem hn), List.nil_append]
      have := matchedIds_count (designationIndex neos) nid apps 0 k a hk
        hidx
      simpa using this
  · intro hnone
    have hidx : designationIndex neos a._designation = none :=
      designationIndex_none neos _ hnone
    simp only [NEODatabase.init]
    rw [linkAll_snd _ _ _ _ hvalid, List.getElem?_map, hk, Option.map_some']
    simp [linkedApp, hidx]

/-- Witness for C2 on the spec's end-to-end example: one NEO "433", one
matching approach (linked, recorded once) and one stray approach
(returned unchanged). -/
theorem database_linking_witness :
    (NEODatabase.init [erosNeo] [erosApproach, strayApproach]).2[0]?
        = some { erosApproach with neo := some 0 } ∧
    (∃ n', (NEODatabase.init [erosNeo] [erosApproach, strayApproach]).1[0]?
        = some n' ∧ n'.designation = erosNeo.designation ∧
        n'.approaches.count 0 = 1) ∧
    (NEODatabase.init [erosNeo] [erosApproach, strayApproach]).2[1]?
        = some strayApproach := by
  have hfresh : ∀ n ∈ [erosNeo], n.approaches = [] := by
    intro n hn
    rw [List.mem_singleton.mp hn]
    rfl
  have hnodup : (([erosNeo]).map (·.designation)).Nodup := by simp
  have h1 := (database_linking [erosNeo] [erosApproach, strayApproach]
    hfresh hnodup 0 erosApproach rfl).1 0 erosNeo
    (Option.mem_def.mpr rfl) rfl
  have h2 := (database_linking [erosNeo] [erosApproach, strayApproach]
    hfresh hnodup 1 strayApproach rfl).2 (by
      intro n hn
      rw [List.mem_singleton.mp hn]
      decide)
  exact ⟨h1.1, h1.2, h2⟩

/-- C10: database construction appends to the input NEOs' pre-existing
`approaches` lists without clearing them, so constructing a second
database from the (already mutated) output of the first records each
matched approach twice in its NEO's `approaches` list. -/
theorem database_relink_duplicates (neos : List NearEarthObject)
    (apps : List CloseApproach)
    (hfresh : ∀ n ∈ neos, n.approaches = [])
    (hnodup : (neos.map (·.designation)).Nodup)
    (k : ApproachId) (a : CloseApproach) (hk : apps[k]? = some a)
    (nid : NeoId) (n : NearEarthObject) (hn : neos[nid]? = some n)
    (hdes : n.designation = a._designation) :
    ∃ n',
      (NEODatabase.init (NEODatabase.init neos apps).1
        (NEODatabase.init neos apps).2).1[nid]? = some n' ∧
      n'.approaches.count k = 2 := by
  have hvalid : IndexValid (designationIndex neos) neos.length :=
    designationIndex_valid neos
  have hidx : designationIndex neos a._designation = some nid := by
    rw [← hdes]
    exact designationIndex_eq_of_nodup neos hnodup nid n hn
  set idx := designationIndex neos with hidxdef
  set p1 := NEODatabase.init neos apps with hp1
  have hlen1 : p1.1.length = neos.length := by
    rw [hp1]
    simp only [NEODatabase.init]
    exact linkAll_fst_length _ _ _ _
  have hdesig1 : p1.1.map (·.designation) = neos.map (·.designation) := by
    rw [hp1]
    simp only [NEODatabase.init]
    exact linkAll_designations _ _ _ _ hvalid
  have hindex1 : designationIndex p1.1 = idx :=
    funext (fun d => designationIndex_congr _ _ hdesig1 d)
  have happs1 : p1.2 = apps.map (linkedApp idx) := by
    rw [hp1]
    simp only [NEODatabase.init]
    exact linkAll_snd _ _ _ _ hvalid
  have hn1 : p1.1[nid]?
      = some { n with approaches := matchedIds idx nid apps 0 } := by
    rw [hp1]
    simp only [NEODatabase.init]
    rw [linkAll_fst_getElem? _ _ _ _ hvalid nid, hn, Option.map_some',
      hfresh n (List.getElem?_mem hn), List.nil_append]
  have hvalid1 : IndexValid idx p1.1.length := by
    rw [hlen1]
    exact hvalid
  have hcount1 : (matchedIds idx nid apps 0).count k = 1 := by
    have := matchedIds_count idx nid apps 0 k a hk hidx
    simpa using this
  have h2 : (NEODatabase.init p1.1 p1.2).1[nid]?
      = some { n with
          approaches := matchedIds idx nid apps 0
            ++ matchedIds idx nid apps 0 } := by
    simp only [NEODatabase.init]
    rw [hindex1, linkAll_fst_getElem? _ _ _ _ hvalid1 nid, hn1,
      Option.map_some', happs1, matchedIds_map_linkedApp idx idx nid apps 0]
  refine ⟨_, h2, ?_⟩
  show (matchedIds idx nid apps 0 ++ matchedIds idx nid apps 0).count k = 2
  rw [List.count_append, hcount1]

/-- Witness for C10: constructing twice over the single NEO "433" and
its one matching approach leaves the approach recorded twice. -/
theorem database_relink_duplicates_witness :
    ∃ n',
      (NEODatabase.init (NEODatabase.init [erosNeo] [erosApproach]).1
        (NEODatabase.init [erosNeo] [erosApproach]).2).1[0]? = some n' ∧
      n'.approaches.count 0 = 2 :=
  database_relink_duplicates [erosNeo] [erosApproach]
    (by
      intro n hn
      rw [List.mem_singleton.mp hn]
      rfl)
    (by simp) 0 erosApproach rfl 0 erosNeo rfl rfl

end NEOCore
